import Mathlib

/-!
Shallow embedding of the `poolswap` Go package (`poolswap.go`): a
reference-counted recycling pool (`Pool`) combined with a hot-swappable
container (`Container`).

Payload instances are identified by natural-number ids.  The mutable heap of
payloads is embedded as functions from ids: `count` is the atomic reference
count (`Ref.count`, an `int64`, embedded as `Int`), `resetGen` counts how many
times the pool's `Reset` function has been invoked on a payload (the "reset
marker" of the spec's tests), `data` is the caller's domain data (cleared by
`Reset`), and `discarded` is a ghost marker recording that `returnToPool`
dropped the instance because `Reset` returned `false` (in Go the object is
simply not `Put` back and left to the garbage collector).

`sync.Pool` is embedded as a LIFO free list: `Put` pushes, `Get` pops the head
when the list is non-empty and otherwise calls the factory (which returns a
fresh zero-state payload: the next unused id, count 0, empty data).

The caller-supplied `Reset` function is embedded by its side effect (clear the
domain data, bump `resetGen`) plus a verdict function `resetOk : Nat → Bool`
giving, per payload id, whether `Reset` reports the instance reusable.
-/

namespace Poolswap

/-- Embedded state of a `Pool[T, PT]` together with the heap of all payload
instances it has ever handed out (ids below `nextId`). -/
structure PoolSt where
  free : List Nat
  nextId : Nat
  count : Nat → Int
  resetGen : Nat → Nat
  data : Nat → List Nat
  discarded : Nat → Bool

/-- A freshly constructed pool (`NewPool`): empty free list, no payloads yet. -/
def mkPool : PoolSt :=
  { free := [], nextId := 0, count := fun _ => 0, resetGen := fun _ => 0,
    data := fun _ => [], discarded := fun _ => false }

/-- `Ref.addRef(delta)`: atomically adds `delta` to payload `i`'s count and
returns the new value (`count.Add(delta)`). -/
def addRef (s : PoolSt) (i : Nat) (delta : Int) : PoolSt × Int :=
  ({ s with count := fun j => if j = i then s.count j + delta else s.count j },
   s.count i + delta)

/-- `Ref.setRef(v)`: atomically stores `v` into payload `i`'s count. -/
def setRef (s : PoolSt) (i : Nat) (v : Int) : PoolSt :=
  { s with count := fun j => if j = i then v else s.count j }

/-- The caller-supplied `Reset` function applied to payload `i`: clears the
domain data, bumps the reset marker, and returns the reusability verdict
`resetOk i`. -/
def resetPayload (resetOk : Nat → Bool) (s : PoolSt) (i : Nat) : PoolSt × Bool :=
  ({ s with
      resetGen := fun j => if j = i then s.resetGen j + 1 else s.resetGen j,
      data := fun j => if j = i then [] else s.data j },
   resetOk i)

/-- `Pool.returnToPool(obj)`: invokes `Reset`; on `true` the object is `Put`
back into the free list, on `false` it is dropped (ghost-marked discarded). -/
def returnToPool (resetOk : Nat → Bool) (s : PoolSt) (i : Nat) : PoolSt :=
  let r := resetPayload resetOk s i
  if r.2 then { r.1 with free := i :: r.1.free }
  else { r.1 with discarded := fun j => if j = i then true else r.1.discarded j }

/-- `Pool.Release(obj)`: no-op on `nil`; otherwise decrement the count and, if
the new value is exactly `0`, return the object to the pool. -/
def Release (resetOk : Nat → Bool) (s : PoolSt) (obj : Option Nat) : PoolSt :=
  match obj with
  | none => s
  | some i =>
      let r := addRef s i (-1)
      if r.2 = 0 then returnToPool resetOk r.1 i else r.1

/-- `Pool.Get()`: pop the free list if non-empty, otherwise construct a fresh
payload via the factory; in both cases `setRef 1` on the result. -/
def Get (s : PoolSt) : Nat × PoolSt :=
  match s.free with
  | i :: rest => (i, setRef { s with free := rest } i 1)
  | [] => (s.nextId, setRef { s with nextId := s.nextId + 1 } s.nextId 1)

/-- Embedded state of a `Container[T, PT]` together with its pool. -/
structure ContainerSt where
  pool : PoolSt
  current : Option Nat

/-- `NewEmptyContainer(pool)`: current is `nil` until `Update` is called. -/
def NewEmptyContainer (pool : PoolSt) : ContainerSt :=
  { pool := pool, current := none }

/-- `NewContainer(pool, init)`: if `init` is non-nil its count is set to 1
(`init.setRef(1)`), and it is installed as current. -/
def NewContainer (pool : PoolSt) (init : Option Nat) : ContainerSt :=
  match init with
  | some i => { pool := setRef pool i 1, current := some i }
  | none => { pool := pool, current := none }

/-- `Container.Update(newObj)`: record the old current, install `newObj` as
current (under the write lock), then release the old object if non-nil. -/
def Update (resetOk : Nat → Bool) (c : ContainerSt) (newObj : Option Nat) :
    ContainerSt :=
  let oldObj := c.current
  let c1 : ContainerSt := { c with current := newObj }
  match oldObj with
  | some i => { c1 with pool := Release resetOk c1.pool (some i) }
  | none => c1

/-- `Container.Acquire()`: read current under the read lock; if non-nil,
increment its count before unlocking; return it (`nil` if empty). -/
def Acquire (c : ContainerSt) : Option Nat × ContainerSt :=
  match c.current with
  | some i => (some i, { c with pool := (addRef c.pool i 1).1 })
  | none => (none, c)

/-- `Container.Release(obj)`: convenience proxy to the pool's `Release`. -/
def CRelease (resetOk : Nat → Bool) (c : ContainerSt) (obj : Option Nat) :
    ContainerSt :=
  { c with pool := Release resetOk c.pool obj }

/-- `Container.GetNew()`: convenience proxy to the pool's `Get`. -/
def GetNew (c : ContainerSt) : Nat × ContainerSt :=
  ((Get c.pool).1, { c with pool := (Get c.pool).2 })

/-- Iterated `Acquire`, discarding the returned references (used to state
"every subsequent Acquire" properties). -/
def acqN : Nat → ContainerSt → ContainerSt
  | 0, c => c
  | n + 1, c => acqN n (Acquire c).2

/-- Iterated `Container.Release` of the same payload `i`, `n` times. -/
def relN (resetOk : Nat → Bool) (i : Nat) : Nat → ContainerSt → ContainerSt
  | 0, c => c
  | n + 1, c => relN resetOk i n (CRelease resetOk c (some i))

/-! ### Field-level characterization of `Release` and `Get` -/

theorem Release_none (resetOk : Nat → Bool) (s : PoolSt) :
    Release resetOk s none = s := rfl

theorem returnToPool_count (resetOk : Nat → Bool) (s : PoolSt) (i : Nat) :
    (returnToPool resetOk s i).count = s.count := by
  simp only [returnToPool, resetPayload]
  split <;> rfl

theorem returnToPool_nextId (resetOk : Nat → Bool) (s : PoolSt) (i : Nat) :
    (returnToPool resetOk s i).nextId = s.nextId := by
  simp only [returnToPool, resetPayload]
  split <;> rfl

theorem returnToPool_free (resetOk : Nat → Bool) (s : PoolSt) (i : Nat) :
    (returnToPool resetOk s i).free =
      if resetOk i = true then i :: s.free else s.free := by
  simp only [returnToPool, resetPayload]
  split <;> simp_all

theorem returnToPool_resetGen (resetOk : Nat → Bool) (s : PoolSt) (i j : Nat) :
    (returnToPool resetOk s i).resetGen j =
      if j = i then s.resetGen j + 1 else s.resetGen j := by
  simp only [returnToPool, resetPayload]
  split <;> rfl

theorem returnToPool_data (resetOk : Nat → Bool) (s : PoolSt) (i j : Nat) :
    (returnToPool resetOk s i).data j = if j = i then [] else s.data j := by
  simp only [returnToPool, resetPayload]
  split <;> rfl

theorem returnToPool_discarded (resetOk : Nat → Bool) (s : PoolSt) (i j : Nat) :
    (returnToPool resetOk s i).discarded j =
      if j = i ∧ resetOk i = false then true else s.discarded j := by
  simp only [returnToPool, resetPayload]
  by_cases hr : resetOk i = true <;> by_cases hj : j = i <;> simp_all

/-- `Release` on a non-nil payload, characterized as a conditional. -/
theorem Release_some (resetOk : Nat → Bool) (s : PoolSt) (i : Nat) :
    Release resetOk s (some i) =
      if s.count i - 1 = 0 then returnToPool resetOk (addRef s i (-1)).1 i
      else (addRef s i (-1)).1 := by
  simp only [Release, addRef, sub_eq_add_neg]

theorem addRef_count (s : PoolSt) (i : Nat) (d : Int) (j : Nat) :
    (addRef s i d).1.count j =
      if j = i then s.count j + d else s.count j := rfl

theorem Release_count (resetOk : Nat → Bool) (s : PoolSt) (i j : Nat) :
    (Release resetOk s (some i)).count j =
      if j = i then s.count j - 1 else s.count j := by
  rw [Release_some]
  split <;> simp [returnToPool_count, addRef_count, sub_eq_add_neg]

theorem Release_free (resetOk : Nat → Bool) (s : PoolSt) (i : Nat) :
    (Release resetOk s (some i)).free =
      if s.count i - 1 = 0 ∧ resetOk i = true then i :: s.free else s.free := by
  rw [Release_some]
  by_cases h0 : s.count i - 1 = 0 <;> by_cases hr : resetOk i = true <;>
    simp_all [returnToPool_free, addRef]

theorem Release_nextId (resetOk : Nat → Bool) (s : PoolSt) (i : Nat) :
    (Release resetOk s (some i)).nextId = s.nextId := by
  rw [Release_some]
  split <;> simp [returnToPool_nextId, addRef]

theorem Release_resetGen (resetOk : Nat → Bool) (s : PoolSt) (i j : Nat) :
    (Release resetOk s (some i)).resetGen j =
      if j = i ∧ s.count i - 1 = 0 then s.resetGen j + 1 else s.resetGen j := by
  rw [Release_some]
  by_cases h0 : s.count i - 1 = 0 <;> by_cases hj : j = i <;>
    simp_all [returnToPool_resetGen, addRef]

theorem Release_data (resetOk : Nat → Bool) (s : PoolSt) (i j : Nat) :
    (Release resetOk s (some i)).data j =
      if j = i ∧ s.count i - 1 = 0 then [] else s.data j := by
  rw [Release_some]
  by_cases h0 : s.count i - 1 = 0 <;> by_cases hj : j = i <;>
    simp_all [returnToPool_data, addRef]

theorem Release_discarded (resetOk : Nat → Bool) (s : PoolSt) (i j : Nat) :
    (Release resetOk s (some i)).discarded j =
      if j = i ∧ s.count i - 1 = 0 ∧ resetOk i = false then true
      else s.discarded j := by
  rw [Release_some]
  by_cases h0 : s.count i - 1 = 0 <;> by_cases hj : j = i <;>
    by_cases hr : resetOk i = true <;>
    simp_all [returnToPool_discarded, addRef]

theorem Get_fst (s : PoolSt) : (Get s).1 = s.free.headD s.nextId := by
  cases h : s.free <;> simp [Get, h]

theorem Get_count (s : PoolSt) (j : Nat) :
    (Get s).2.count j = if j = (Get s).1 then 1 else s.count j := by
  cases h : s.free <;> simp [Get, h, setRef]

theorem Get_free (s : PoolSt) : (Get s).2.free = s.free.tail := by
  cases h : s.free <;> simp [Get, h, setRef]

theorem Get_nextId (s : PoolSt) :
    (Get s).2.nextId = if s.free = [] then s.nextId + 1 else s.nextId := by
  cases h : s.free <;> simp [Get, h, setRef]

theorem Get_resetGen (s : PoolSt) : (Get s).2.resetGen = s.resetGen := by
  cases h : s.free <;> simp [Get, h, setRef]

theorem Get_data (s : PoolSt) : (Get s).2.data = s.data := by
  cases h : s.free <;> simp [Get, h, setRef]

theorem Get_discarded (s : PoolSt) : (Get s).2.discarded = s.discarded := by
  cases h : s.free <;> simp [Get, h, setRef]

/-! ### Interleaving semantics

For the concurrency claims the program is embedded as a transition system
over a pool, one container, and ghost bookkeeping of the external holders.
`extHeld i` counts how many outstanding references to payload `i` are held by
callers (obtained from `Get`/`GetNew`/a completed `Acquire` and not yet
released or handed to `Update`).

Go's `Acquire` runs under the container's read lock and `Update`'s pointer
swap under the write lock.  `Acquire` is therefore split into its two
sub-steps — reading the `current` pointer and incrementing the count — with
the read-lock modelled by the `pending` list: a reader that has read the
pointer but not yet incremented still holds the read lock, so `Update`
(which needs the write lock) is enabled only when `pending` is empty.
Readers do not exclude each other, and `Get`/`Release` never take the
container's lock, so all other operations stay single atomic steps (their
shared effects are single atomic counter updates or pool-internal). -/

structure Sys where
  pool : PoolSt
  current : Option Nat
  extHeld : Nat → Nat
  pending : List Nat

/-- A fresh pool and a fresh (empty) container, nothing handed out. -/
def Sys.start : Sys :=
  { pool := mkPool, current := none, extHeld := fun _ => 0, pending := [] }

/-- One atomic step of some thread, with well-formed use (a caller only
releases or publishes a payload it actually holds). -/
inductive Step (resetOk : Nat → Bool) : Sys → Sys → Prop where
  /-- A caller runs `Pool.Get` (or `Container.GetNew`) and keeps the result. -/
  | get (s : Sys) :
      Step resetOk s
        { s with
          pool := (Get s.pool).2
          extHeld := fun j =>
            if j = (Get s.pool).1 then s.extHeld j + 1 else s.extHeld j }
  /-- `Acquire`, first half: under the read lock, read a non-nil `current`. -/
  | acqBegin (s : Sys) (i : Nat) (h : s.current = some i) :
      Step resetOk s { s with pending := i :: s.pending }
  /-- `Acquire` on an empty container: returns nil, no state change. -/
  | acqNil (s : Sys) (h : s.current = none) : Step resetOk s s
  /-- `Acquire`, second half: still under the read lock, `addRef 1` on the
  pointer read earlier; the caller becomes a holder. -/
  | acqEnd (s : Sys) (i : Nat) (h : i ∈ s.pending) :
      Step resetOk s
        { s with
          pending := s.pending.erase i
          pool := (addRef s.pool i 1).1
          extHeld := fun j => if j = i then s.extHeld j + 1 else s.extHeld j }
  /-- A holder runs `Pool.Release` (or `Container.Release`) on its payload. -/
  | release (s : Sys) (i : Nat) (h : 0 < s.extHeld i) :
      Step resetOk s
        { s with
          pool := Release resetOk s.pool (some i)
          extHeld := fun j => if j = i then s.extHeld j - 1 else s.extHeld j }
  /-- `Container.Update(newObj)` with a payload the caller holds: requires the
  write lock (no pending readers), swaps `current`, transfers the caller's
  hold to the container, then releases the old current. -/
  | update (s : Sys) (i : Nat) (h : 0 < s.extHeld i) (hp : s.pending = []) :
      Step resetOk s
        { s with
          current := some i
          extHeld := fun j => if j = i then s.extHeld j - 1 else s.extHeld j
          pool := Release resetOk s.pool s.current }
  /-- `Container.Update(nil)`: same, publishing the empty value. -/
  | updateNil (s : Sys) (hp : s.pending = []) :
      Step resetOk s
        { s with
          current := none
          pool := Release resetOk s.pool s.current }

/-- States reachable from the fresh pool and container. -/
inductive Reach (resetOk : Nat → Bool) : Sys → Prop where
  | start : Reach resetOk Sys.start
  | step {s t : Sys} : Reach resetOk s → Step resetOk s t → Reach resetOk t

/-- Number of holders of payload `i`: outstanding caller references plus the
container's implicit hold while `i` is current. -/
def holders (s : Sys) (i : Nat) : Int :=
  (s.extHeld i : Int) + (if s.current = some i then 1 else 0)

/-- The global invariant of reachable states. -/
structure Inv (resetOk : Nat → Bool) (s : Sys) : Prop where
  count_eq : ∀ i, s.pool.count i = holders s i
  free_zero : ∀ i ∈ s.pool.free, s.pool.count i = 0
  free_nodup : s.pool.free.Nodup
  free_ok : ∀ i ∈ s.pool.free, resetOk i = true
  count_lt : ∀ i, s.pool.count i ≠ 0 → i < s.pool.nextId
  free_lt : ∀ i ∈ s.pool.free, i < s.pool.nextId
  disc_lt : ∀ i, s.pool.discarded i = true → i < s.pool.nextId
  disc_zero : ∀ i, s.pool.discarded i = true → s.pool.count i = 0
  disc_ok : ∀ i, s.pool.discarded i = true → resetOk i = false
  handed : ∀ i, i < s.pool.nextId →
    0 < s.pool.count i ∨ i ∈ s.pool.free ∨ s.pool.discarded i = true
  pending_cur : ∀ i ∈ s.pending, s.current = some i

theorem inv_start (resetOk : Nat → Bool) : Inv resetOk Sys.start := by
  constructor <;> simp [Sys.start, mkPool, holders]

theorem Get_free_eq (s : PoolSt) (h : s.free ≠ []) :
    s.free = (Get s).1 :: s.free.tail := by
  cases hf : s.free with
  | nil => exact absurd hf h
  | cons a l => simp [Get_fst, hf]

theorem Get_fst_cases (s : PoolSt) :
    (Get s).1 ∈ s.free ∨ ((Get s).1 = s.nextId ∧ s.free = []) := by
  cases hf : s.free with
  | nil => simp [Get_fst, hf]
  | cons a l => simp [Get_fst, hf]

theorem Get_nextId_le (s : PoolSt) : s.nextId ≤ (Get s).2.nextId := by
  rw [Get_nextId]; split <;> omega

theorem inv_get {resetOk : Nat → Bool} {s : Sys} (I : Inv resetOk s) :
    Inv resetOk
      { s with
        pool := (Get s.pool).2
        extHeld := fun j =>
          if j = (Get s.pool).1 then s.extHeld j + 1 else s.extHeld j } := by
  obtain ⟨ceq, fz, fnd, fok, clt, flt, dlt, dz, dok, hd, pc⟩ := I
  set g := (Get s.pool).1 with hg
  have count0 : s.pool.count g = 0 := by
    rcases Get_fst_cases s.pool with hmem | ⟨he, _⟩
    · exact fz g hmem
    · by_contra hne
      have := clt g hne
      omega
  have hext : s.extHeld g = 0 ∧ s.current ≠ some g := by
    have := ceq g
    rw [count0] at this
    unfold holders at this
    by_cases hc : s.current = some g
    · rw [if_pos hc] at this; omega
    · rw [if_neg hc] at this
      exact ⟨by omega, hc⟩
  have gdisc : s.pool.discarded g = false := by
    rcases Get_fst_cases s.pool with hmem | ⟨he, _⟩
    · by_contra hne
      have h1 := fok g hmem
      have h2 := dok g (by simpa using hne)
      simp [h1] at h2
    · by_contra hne
      have := dlt g (by simpa using hne)
      omega
  have glt : g < (Get s.pool).2.nextId := by
    rcases Get_fst_cases s.pool with hmem | ⟨he, hnil⟩
    · exact lt_of_lt_of_le (flt g hmem) (Get_nextId_le s.pool)
    · rw [Get_nextId, if_pos hnil]; omega
  constructor
  · intro i
    show (Get s.pool).2.count i = _
    rw [Get_count]
    unfold holders
    by_cases hi : i = g
    · subst hi
      have h2 := hext.2
      simp only [if_pos rfl]
      simp [hext.1, h2]
    · simp only [← hg, if_neg hi]
      have := ceq i
      unfold holders at this
      rw [this]
  · intro i hi
    show (Get s.pool).2.count i = 0
    rw [Get_free] at hi
    have hne : s.pool.free ≠ [] := by
      intro h
      rw [h] at hi
      simp at hi
    have hfe := Get_free_eq s.pool hne
    have hmem : i ∈ s.pool.free := by rw [hfe]; exact List.mem_cons_of_mem _ hi
    have hig : i ≠ g := by
      intro h
      subst h
      have := fnd
      rw [hfe] at this
      rw [List.nodup_cons] at this
      exact this.1 hi
    rw [Get_count, if_neg (by rw [← hg]; exact hig)]
    exact fz i hmem
  · show ((Get s.pool).2.free).Nodup
    rw [Get_free]
    exact fnd.sublist (List.tail_sublist _)
  · intro i hi
    rw [Get_free] at hi
    exact fok i (List.mem_of_mem_tail hi)
  · intro i hi
    show i < (Get s.pool).2.nextId
    rw [Get_count] at hi
    by_cases hig : i = g
    · subst hig; exact glt
    · rw [if_neg (by rw [← hg]; exact hig)] at hi
      exact lt_of_lt_of_le (clt i hi) (Get_nextId_le s.pool)
  · intro i hi
    rw [Get_free] at hi
    exact lt_of_lt_of_le (flt i (List.mem_of_mem_tail hi)) (Get_nextId_le s.pool)
  · intro i hi
    rw [Get_discarded] at hi
    exact lt_of_lt_of_le (dlt i hi) (Get_nextId_le s.pool)
  · intro i hi
    rw [Get_discarded] at hi
    show (Get s.pool).2.count i = 0
    have hig : i ≠ g := by
      intro h
      subst h
      rw [hi] at gdisc
      exact Bool.true_eq_false.mp gdisc
    rw [Get_count, if_neg (by rw [← hg]; exact hig)]
    exact dz i hi
  · intro i hi
    rw [Get_discarded] at hi
    exact dok i hi
  · intro i hi
    show 0 < (Get s.pool).2.count i ∨ i ∈ (Get s.pool).2.free ∨
      (Get s.pool).2.discarded i = true
    rw [Get_count, Get_free, Get_discarded]
    by_cases hig : i = g
    · subst hig
      left
      rw [if_pos rfl]
      omega
    · rw [if_neg (by rw [← hg]; exact hig)]
      have hilt : i < s.pool.nextId := by
        by_contra hge
        have : (Get s.pool).2.nextId = s.pool.nextId + 1 := by
          rw [Get_nextId] at hi ⊢
          split at hi
          · simpa
          · omega
        have hieq : i = s.pool.nextId := by
          rw [this] at hi
          omega
        have hnil : s.pool.free = [] := by
          by_contra hne
          rw [Get_nextId, if_neg hne] at this
          omega
        have : g = s.pool.nextId := by
          rcases Get_fst_cases s.pool with hmem | ⟨he, _⟩
          · rw [hnil] at hmem; simp at hmem
          · exact he
        exact hig (hieq.trans this.symm)
      rcases hd i hilt with h1 | h2 | h3
      · left; exact h1
      · right; left
        have hne : s.pool.free ≠ [] := by
          intro h; rw [h] at h2; simp at h2
        have hfe := Get_free_eq s.pool hne
        rw [hfe] at h2
        rcases List.mem_cons.mp h2 with h | h
        · exact absurd h hig
        · exact h
      · right; right; exact h3
  · intro i hi
    exact pc i hi

theorem inv_acqBegin {resetOk : Nat → Bool} {s : Sys} (i : Nat)
    (h : s.current = some i) (I : Inv resetOk s) :
    Inv resetOk { s with pending := i :: s.pending } := by
  obtain ⟨ceq, fz, fnd, fok, clt, flt, dlt, dz, dok, hd, pc⟩ := I
  refine ⟨ceq, fz, fnd, fok, clt, flt, dlt, dz, dok, hd, ?_⟩
  intro j hj
  rcases List.mem_cons.mp hj with hj | hj
  · subst hj; exact h
  · exact pc j hj

theorem inv_acqEnd {resetOk : Nat → Bool} {s : Sys} (i : Nat)
    (h : i ∈ s.pending) (I : Inv resetOk s) :
    Inv resetOk
      { s with
        pending := s.pending.erase i
        pool := (addRef s.pool i 1).1
        extHeld := fun j => if j = i then s.extHeld j + 1 else s.extHeld j } := by
  obtain ⟨ceq, fz, fnd, fok, clt, flt, dlt, dz, dok, hd, pc⟩ := I
  have cur : s.current = some i := pc i h
  have hcnt : s.pool.count i = s.extHeld i + 1 := by
    have := ceq i
    unfold holders at this
    rw [if_pos cur] at this
    omega
  have hpos : s.pool.count i ≠ 0 := by omega
  constructor
  · intro j
    show (addRef s.pool i 1).1.count j = _
    rw [addRef_count]
    unfold holders
    by_cases hj : j = i
    · subst hj
      rw [if_pos rfl]
      simp only [if_pos rfl]
      rw [if_pos cur, hcnt]
      push_cast
      ring
    · rw [if_neg hj]
      simp only [if_neg hj]
      have := ceq j
      unfold holders at this
      exact this
  · intro j hj
    show (addRef s.pool i 1).1.count j = 0
    have hj0 := fz j hj
    have hji : j ≠ i := by
      intro hh; subst hh; exact hpos hj0
    rw [addRef_count, if_neg hji]
    exact hj0
  · exact fnd
  · exact fok
  · intro j hj
    show j < s.pool.nextId
    rw [addRef_count] at hj
    by_cases hji : j = i
    · subst hji; exact clt j hpos
    · rw [if_neg hji] at hj; exact clt j hj
  · exact flt
  · exact dlt
  · intro j hj
    show (addRef s.pool i 1).1.count j = 0
    have hji : j ≠ i := by
      intro hh; subst hh; exact hpos (dz j hj)
    rw [addRef_count, if_neg hji]
    exact dz j hj
  · exact dok
  · intro j hj
    show 0 < (addRef s.pool i 1).1.count j ∨ _ ∨ _
    rw [addRef_count]
    by_cases hji : j = i
    · subst hji
      left
      rw [if_pos rfl]
      omega
    · rw [if_neg hji]
      exact hd j hj
  · intro j hj
    exact pc j (List.mem_of_mem_erase hj)

/-- Re-establishing the pool-side invariant fields after a `Pool.Release` of a
payload `i` with positive count; shared by the `release`, `update` and
`updateNil` cases (which differ only in `current`, `extHeld`, `pending`;
`count_eq` and `pending_cur` are taken as hypotheses). -/
theorem inv_release_pool {resetOk : Nat → Bool} {s : Sys} {t : Sys} (i : Nat)
    (hpool : t.pool = Release resetOk s.pool (some i))
    (hcnt : 0 < s.pool.count i)
    (hceq : ∀ j, t.pool.count j = holders t j)
    (hpc : ∀ j ∈ t.pending, t.current = some j)
    (I : Inv resetOk s) : Inv resetOk t := by
  obtain ⟨ceq, fz, fnd, fok, clt, flt, dlt, dz, dok, hd, pc⟩ := I
  have hpos : s.pool.count i ≠ 0 := by omega
  have hi_lt : i < s.pool.nextId := clt i hpos
  have hi_nfree : i ∉ s.pool.free := by
    intro hmem
    exact hpos (fz i hmem)
  have hi_ndisc : s.pool.discarded i ≠ true := by
    intro hdi
    exact hpos (dz i hdi)
  constructor
  · exact hceq
  · intro j hj
    rw [hpool] at hj ⊢
    rw [Release_free] at hj
    rw [Release_count]
    by_cases hc : s.pool.count i - 1 = 0 ∧ resetOk i = true
    · rw [if_pos hc] at hj
      rcases List.mem_cons.mp hj with hj | hj
      · rw [if_pos hj, hj]
        omega
      · have hji : j ≠ i := fun hh => hi_nfree (hh ▸ hj)
        rw [if_neg hji]
        exact fz j hj
    · rw [if_neg hc] at hj
      have hji : j ≠ i := fun hh => hi_nfree (hh ▸ hj)
      rw [if_neg hji]
      exact fz j hj
  · rw [hpool, Release_free]
    by_cases hc : s.pool.count i - 1 = 0 ∧ resetOk i = true
    · rw [if_pos hc]
      exact List.nodup_cons.mpr ⟨hi_nfree, fnd⟩
    · rw [if_neg hc]
      exact fnd
  · intro j hj
    rw [hpool, Release_free] at hj
    by_cases hc : s.pool.count i - 1 = 0 ∧ resetOk i = true
    · rw [if_pos hc] at hj
      rcases List.mem_cons.mp hj with hj | hj
      · rw [hj]
        exact hc.2
      · exact fok j hj
    · rw [if_neg hc] at hj
      exact fok j hj
  · intro j hj
    rw [hpool] at hj
    rw [hpool, Release_nextId]
    rw [Release_count] at hj
    by_cases hji : j = i
    · rw [hji]; exact hi_lt
    · rw [if_neg hji] at hj
      exact clt j hj
  · intro j hj
    rw [hpool] at hj
    rw [hpool, Release_nextId]
    rw [Release_free] at hj
    by_cases hc : s.pool.count i - 1 = 0 ∧ resetOk i = true
    · rw [if_pos hc] at hj
      rcases List.mem_cons.mp hj with hj | hj
      · rw [hj]; exact hi_lt
      · exact flt j hj
    · rw [if_neg hc] at hj
      exact flt j hj
  · intro j hj
    rw [hpool] at hj
    rw [hpool, Release_nextId]
    rw [Release_discarded] at hj
    by_cases hc : j = i ∧ s.pool.count i - 1 = 0 ∧ resetOk i = false
    · rw [hc.1]
      exact hi_lt
    · rw [if_neg hc] at hj
      exact dlt j hj
  · intro j hj
    rw [hpool] at hj ⊢
    rw [Release_discarded] at hj
    rw [Release_count]
    by_cases hc : j = i ∧ s.pool.count i - 1 = 0 ∧ resetOk i = false
    · rw [if_pos hc.1, hc.1]
      exact hc.2.1
    · rw [if_neg hc] at hj
      have hji : j ≠ i := by
        intro hh
        rw [hh] at hj
        exact hi_ndisc hj
      rw [if_neg hji]
      exact dz j hj
  · intro j hj
    rw [hpool, Release_discarded] at hj
    by_cases hc : j = i ∧ s.pool.count i - 1 = 0 ∧ resetOk i = false
    · rw [hc.1]
      exact hc.2.2
    · rw [if_neg hc] at hj
      exact dok j hj
  · intro j hj
    rw [hpool, Release_nextId] at hj
    rw [hpool, Release_count, Release_free, Release_discarded]
    by_cases hji : j = i
    · rw [hji]
      by_cases h0 : s.pool.count i - 1 = 0
      · by_cases hr : resetOk i = true
        · right; left
          rw [if_pos ⟨h0, hr⟩]
          exact List.mem_cons_self i _
        · right; right
          rw [if_pos ⟨rfl, h0, by simpa using hr⟩]
      · left
        rw [if_pos rfl]
        have hj0 := hceq i
        rw [hpool, Release_count, if_pos rfl] at hj0
        have hh : 0 ≤ holders t i := by
          unfold holders
          split <;> omega
        omega
    · rcases hd j hj with h1 | h2 | h3
      · left
        rw [if_neg hji]
        exact h1
      · right; left
        split
        · exact List.mem_cons_of_mem _ h2
        · exact h2
      · right; right
        rw [if_neg (by intro hc; exact hji hc.1)]
        exact h3
  · exact hpc

theorem ite_some_eq (a b : Nat) (x y : Int) :
    (if (some a : Option Nat) = some b then x else y) =
      if a = b then x else y := by
  by_cases h : a = b <;> simp [h]

theorem ite_none_eq (b : Nat) (x y : Int) :
    (if (none : Option Nat) = some b then x else y) = y :=
  if_neg (by intro h; cases h)

theorem inv_release {resetOk : Nat → Bool} {s : Sys} (i : Nat)
    (h : 0 < s.extHeld i) (I : Inv resetOk s) :
    Inv resetOk
      { s with
        pool := Release resetOk s.pool (some i)
        extHeld := fun j => if j = i then s.extHeld j - 1 else s.extHeld j } := by
  have hcnt : 0 < s.pool.count i := by
    have hj0 := I.count_eq i
    unfold holders at hj0
    split at hj0 <;> omega
  refine inv_release_pool i rfl hcnt ?_ ?_ I
  · intro j
    show (Release resetOk s.pool (some i)).count j =
      (↑(if j = i then s.extHeld j - 1 else s.extHeld j) : Int) +
        (if s.current = some j then 1 else 0)
    rw [Release_count]
    have hj0 := I.count_eq j
    unfold holders at hj0
    by_cases hji : j = i
    · rw [if_pos hji, if_pos hji]
      rw [hji] at hj0 ⊢
      by_cases hc : s.current = some i
      · rw [if_pos hc] at hj0 ⊢
        omega
      · rw [if_neg hc] at hj0 ⊢
        omega
    · rw [if_neg hji, if_neg hji]
      exact hj0
  · intro j hj
    exact I.pending_cur j hj

theorem inv_update {resetOk : Nat → Bool} {s : Sys} (i : Nat)
    (h : 0 < s.extHeld i) (hp : s.pending = []) (I : Inv resetOk s) :
    Inv resetOk
      { s with
        current := some i
        extHeld := fun j => if j = i then s.extHeld j - 1 else s.extHeld j
        pool := Release resetOk s.pool s.current } := by
  cases hcur : s.current with
  | none =>
    obtain ⟨ceq, fz, fnd, fok, clt, flt, dlt, dz, dok, hd, pc⟩ := I
    rw [Release_none]
    constructor
    · intro j
      show s.pool.count j =
        (↑(if j = i then s.extHeld j - 1 else s.extHeld j) : Int) +
          (if (some i : Option Nat) = some j then 1 else 0)
      rw [ite_some_eq]
      have hj0 := ceq j
      unfold holders at hj0
      rw [hcur, ite_none_eq] at hj0
      by_cases hji : j = i
      · rw [if_pos hji, if_pos hji.symm]
        rw [hji] at hj0 ⊢
        omega
      · rw [if_neg hji, if_neg (fun hx => hji hx.symm)]
        omega
    · exact fz
    · exact fnd
    · exact fok
    · exact clt
    · exact flt
    · exact dlt
    · exact dz
    · exact dok
    · exact hd
    · intro j hj
      rw [hp] at hj
      exact absurd hj (List.not_mem_nil j)
  | some o =>
    have hco : s.pool.count o = (s.extHeld o : Int) + 1 := by
      have hj0 := I.count_eq o
      unfold holders at hj0
      rw [if_pos hcur] at hj0
      exact hj0
    have hcnt : 0 < s.pool.count o := by omega
    refine inv_release_pool o rfl hcnt ?_ ?_ I
    · intro j
      show (Release resetOk s.pool (some o)).count j =
        (↑(if j = i then s.extHeld j - 1 else s.extHeld j) : Int) +
          (if (some i : Option Nat) = some j then 1 else 0)
      rw [Release_count, ite_some_eq]
      have hj0 := I.count_eq j
      unfold holders at hj0
      rw [hcur, ite_some_eq] at hj0
      by_cases hjo : j = o <;> by_cases hji : j = i
      · have hj2 : 0 < s.extHeld j := by rw [hji]; exact h
        rw [if_pos hjo, if_pos hji, if_pos hji.symm]
        rw [if_pos hjo.symm] at hj0
        omega
      · rw [if_pos hjo, if_neg hji, if_neg (fun hx => hji hx.symm)]
        rw [if_pos hjo.symm] at hj0
        omega
      · have hj2 : 0 < s.extHeld j := by rw [hji]; exact h
        rw [if_neg hjo, if_pos hji, if_pos hji.symm]
        rw [if_neg (fun hx => hjo hx.symm)] at hj0
        omega
      · rw [if_neg hjo, if_neg hji, if_neg (fun hx => hji hx.symm)]
        rw [if_neg (fun hx => hjo hx.symm)] at hj0
        omega
    · intro j hj
      rw [hp] at hj
      exact absurd hj (List.not_mem_nil j)

theorem inv_updateNil {resetOk : Nat → Bool} {s : Sys}
    (hp : s.pending = []) (I : Inv resetOk s) :
    Inv resetOk
      { s with
        current := none
        pool := Release resetOk s.pool s.current } := by
  cases hcur : s.current with
  | none =>
    obtain ⟨ceq, fz, fnd, fok, clt, flt, dlt, dz, dok, hd, pc⟩ := I
    rw [Release_none]
    constructor
    · intro j
      show s.pool.count j = (s.extHeld j : Int) +
        (if (none : Option Nat) = some j then 1 else 0)
      rw [ite_none_eq]
      have hj0 := ceq j
      unfold holders at hj0
      rw [hcur, ite_none_eq] at hj0
      exact hj0
    · exact fz
    · exact fnd
    · exact fok
    · exact clt
    · exact flt
    · exact dlt
    · exact dz
    · exact dok
    · exact hd
    · intro j hj
      rw [hp] at hj
      exact absurd hj (List.not_mem_nil j)
  | some o =>
    have hco : s.pool.count o = (s.extHeld o : Int) + 1 := by
      have hj0 := I.count_eq o
      unfold holders at hj0
      rw [if_pos hcur] at hj0
      exact hj0
    have hcnt : 0 < s.pool.count o := by omega
    refine inv_release_pool o rfl hcnt ?_ ?_ I
    · intro j
      show (Release resetOk s.pool (some o)).count j = (s.extHeld j : Int) +
        (if (none : Option Nat) = some j then 1 else 0)
      rw [Release_count, ite_none_eq]
      have hj0 := I.count_eq j
      unfold holders at hj0
      rw [hcur, ite_some_eq] at hj0
      by_cases hjo : j = o
      · rw [if_pos hjo]
        rw [if_pos hjo.symm] at hj0
        omega
      · rw [if_neg hjo]
        rw [if_neg (fun hx => hjo hx.symm)] at hj0
        omega
    · intro j hj
      rw [hp] at hj
      exact absurd hj (List.not_mem_nil j)

/-- Every step preserves the invariant. -/
theorem inv_step {resetOk : Nat → Bool} {s t : Sys} (I : Inv resetOk s)
    (st : Step resetOk s t) : Inv resetOk t := by
  cases st with
  | get => exact inv_get I
  | acqBegin i h => exact inv_acqBegin i h I
  | acqNil h => exact I
  | acqEnd i h => exact inv_acqEnd i h I
  | release i h => exact inv_release i h I
  | update i h hpe => exact inv_update i h hpe I
  | updateNil hpe => exact inv_updateNil hpe I

/-- Every reachable state satisfies the invariant. -/
theorem reach_inv {resetOk : Nat → Bool} {s : Sys} (hr : Reach resetOk s) :
    Inv resetOk s := by
  induction hr with
  | start => exact inv_start resetOk
  | step _ st ih => exact inv_step ih st

/-- In any single step, a payload's reset marker or domain data changes only
if that payload's count is `0` after the step (`Reset` runs only inside
`returnToPool`, reached only when `addRef (-1)` returned exactly `0`). -/
theorem step_reset_only_at_zero {resetOk : Nat → Bool} {s t : Sys}
    (st : Step resetOk s t) (i : Nat)
    (hch : t.pool.resetGen i ≠ s.pool.resetGen i ∨
      t.pool.data i ≠ s.pool.data i) :
    t.pool.count i = 0 := by
  cases st with
  | get =>
    exfalso
    rcases hch with hch | hch
    · exact hch (congrFun (Get_resetGen s.pool) i)
    · exact hch (congrFun (Get_data s.pool) i)
  | acqBegin j h =>
    exfalso
    rcases hch with hch | hch <;> exact hch rfl
  | acqNil h =>
    exfalso
    rcases hch with hch | hch <;> exact hch rfl
  | acqEnd j h =>
    exfalso
    rcases hch with hch | hch <;> exact hch rfl
  | release j h =>
    show (Release resetOk s.pool (some j)).count i = 0
    rw [Release_count]
    by_cases hc : i = j ∧ s.pool.count j - 1 = 0
    · rw [if_pos hc.1, hc.1]
      exact hc.2
    · exfalso
      rcases hch with hch | hch
      · exact hch (by show (Release resetOk s.pool (some j)).resetGen i = _
                      rw [Release_resetGen, if_neg hc])
      · exact hch (by show (Release resetOk s.pool (some j)).data i = _
                      rw [Release_data, if_neg hc])
  | update j h hpe =>
    show (Release resetOk s.pool s.current).count i = 0
    cases hcur : s.current with
    | none =>
      exfalso
      rw [hcur] at hch
      rcases hch with hch | hch <;> exact hch (by rw [Release_none])
    | some o =>
      rw [hcur] at hch
      rw [Release_count]
      by_cases hc : i = o ∧ s.pool.count o - 1 = 0
      · rw [if_pos hc.1, hc.1]
        exact hc.2
      · exfalso
        rcases hch with hch | hch
        · exact hch (by rw [Release_resetGen, if_neg hc])
        · exact hch (by rw [Release_data, if_neg hc])
  | updateNil hpe =>
    show (Release resetOk s.pool s.current).count i = 0
    cases hcur : s.current with
    | none =>
      exfalso
      rw [hcur] at hch
      rcases hch with hch | hch <;> exact hch (by rw [Release_none])
    | some o =>
      rw [hcur] at hch
      rw [Release_count]
      by_cases hc : i = o ∧ s.pool.count o - 1 = 0
      · rw [if_pos hc.1, hc.1]
        exact hc.2
      · exfalso
        rcases hch with hch | hch
        · exact hch (by rw [Release_resetGen, if_neg hc])
        · exact hch (by rw [Release_data, if_neg hc])

/-- C1: under arbitrary interleavings of `Get`, `Acquire` (split into its
pointer-read and count-increment halves, which exclude `Update`'s swap via
the shared critical section modelled by `pending`), `Release` and `Update`,
a payload that a thread holds after a step — or that a reader is between
the pointer read and the increment on — has count at least 1, is not in the
free list, and its reset marker and domain data did not change in that step:
no holder ever observes its payload reset or recycled, and the count cannot
reach zero between the pointer read and the increment. -/
theorem no_recycle_while_held (resetOk : Nat → Bool) {s t : Sys}
    (hr : Reach resetOk s) (st : Step resetOk s t) (i : Nat)
    (hheld : 0 < t.extHeld i ∨ i ∈ t.pending) :
    1 ≤ t.pool.count i ∧ i ∉ t.pool.free ∧
      t.pool.resetGen i = s.pool.resetGen i ∧
      t.pool.data i = s.pool.data i := by
  have It := inv_step (reach_inv hr) st
  have hceq := It.count_eq i
  unfold holders at hceq
  have hpos : 1 ≤ t.pool.count i := by
    rcases hheld with hh | hh
    · split at hceq <;> omega
    · rw [if_pos (It.pending_cur i hh)] at hceq
      omega
  refine ⟨hpos, ?_, ?_, ?_⟩
  · intro hmem
    have := It.free_zero i hmem
    omega
  · by_contra hne
    have := step_reset_only_at_zero st i (Or.inl hne)
    omega
  · by_contra hne
    have := step_reset_only_at_zero st i (Or.inr hne)
    omega

theorem no_recycle_while_held_witness :
    1 ≤ (Get mkPool).2.count 0 ∧ (0:Nat) ∉ (Get mkPool).2.free ∧
      (Get mkPool).2.resetGen 0 = mkPool.resetGen 0 ∧
      (Get mkPool).2.data 0 = mkPool.data 0 :=
  no_recycle_while_held (fun _ => true) Reach.start
    (Step.get Sys.start) 0 (Or.inl (by decide))

/-- C2: in every reachable state of the transition system (well-formed use:
holders only release what they hold), every payload's count is non-negative,
and a payload with count `0` is held by no caller and is not the container's
current payload; if it was ever handed out (its id is below `nextId`) it is
in the free list or discarded. -/
theorem count_nonneg_zero_unreachable (resetOk : Nat → Bool) {s : Sys}
    (hr : Reach resetOk s) (i : Nat) :
    0 ≤ s.pool.count i ∧
      (s.pool.count i = 0 →
        s.extHeld i = 0 ∧ s.current ≠ some i ∧
          (i < s.pool.nextId →
            i ∈ s.pool.free ∨ s.pool.discarded i = true)) := by
  have I := reach_inv hr
  have hceq := I.count_eq i
  unfold holders at hceq
  constructor
  · split at hceq <;> omega
  · intro h0
    have hext : s.extHeld i = 0 ∧ s.current ≠ some i := by
      by_cases hc : s.current = some i
      · rw [if_pos hc] at hceq
        omega
      · rw [if_neg hc] at hceq
        exact ⟨by omega, hc⟩
    refine ⟨hext.1, hext.2, ?_⟩
    intro hlt
    rcases I.handed i hlt with h1 | h2 | h3
    · omega
    · exact Or.inl h2
    · exact Or.inr h3

theorem count_nonneg_zero_unreachable_witness :
    0 ≤ Sys.start.pool.count 0 ∧ Sys.start.extHeld 0 = 0 :=
  ⟨(count_nonneg_zero_unreachable (fun _ => true) Reach.start 0).1,
    ((count_nonneg_zero_unreachable (fun _ => true) Reach.start 0).2
      rfl).1⟩

/-! ### Sequential characterization of the container operations -/

theorem Acquire_fst (c : ContainerSt) : (Acquire c).1 = c.current := by
  cases h : c.current <;> simp [Acquire, h]

theorem Acquire_current (c : ContainerSt) : (Acquire c).2.current = c.current := by
  cases h : c.current <;> simp [Acquire, h]

theorem Acquire_some_count (c : ContainerSt) (i : Nat) (h : c.current = some i)
    (j : Nat) :
    (Acquire c).2.pool.count j =
      if j = i then c.pool.count j + 1 else c.pool.count j := by
  simp [Acquire, h, addRef]

theorem acqN_current (k : Nat) (c : ContainerSt) :
    (acqN k c).current = c.current := by
  induction k generalizing c with
  | zero => rfl
  | succ n ih =>
    show (acqN n (Acquire c).2).current = c.current
    rw [ih, Acquire_current]

theorem acqN_count (k : Nat) (c : ContainerSt) (i : Nat)
    (h : c.current = some i) :
    (acqN k c).pool.count i = c.pool.count i + k := by
  induction k generalizing c with
  | zero => simp [acqN]
  | succ n ih =>
    show (acqN n (Acquire c).2).pool.count i = _
    rw [ih (Acquire c).2 (by rw [Acquire_current, h]),
      Acquire_some_count c i h i, if_pos rfl]
    push_cast
    ring

theorem relN_count (resetOk : Nat → Bool) (i : Nat) (k : Nat)
    (c : ContainerSt) :
    (relN resetOk i k c).pool.count i = c.pool.count i - k ∧
      (relN resetOk i k c).current = c.current := by
  induction k generalizing c with
  | zero =>
    refine ⟨?_, rfl⟩
    show c.pool.count i = c.pool.count i - ((0 : Nat) : Int)
    simp
  | succ n ih =>
    have h1 : (CRelease resetOk c (some i)).pool.count i =
        c.pool.count i - 1 := by
      show (Release resetOk c.pool (some i)).count i = _
      rw [Release_count, if_pos rfl]
    rcases ih (CRelease resetOk c (some i)) with ⟨ha, hb⟩
    refine ⟨?_, ?_⟩
    · show (relN resetOk i n (CRelease resetOk c (some i))).pool.count i = _
      rw [ha, h1]
      push_cast
      ring
    · show (relN resetOk i n (CRelease resetOk c (some i))).current = _
      rw [hb]
      rfl

theorem Update_current (resetOk : Nat → Bool) (c : ContainerSt)
    (newObj : Option Nat) : (Update resetOk c newObj).current = newObj := by
  cases h : c.current <;> simp [Update, h]

theorem Update_pool (resetOk : Nat → Bool) (c : ContainerSt)
    (newObj : Option Nat) :
    (Update resetOk c newObj).pool = Release resetOk c.pool c.current := by
  cases h : c.current <;> simp [Update, h, Release_none]

/-! ### Claim theorems on the sequential operations -/

/-- C4: `Pool.Release(obj)` on a non-nil `obj` decrements its count by 1;
reset is invoked if and only if the decremented count is exactly 0, in which
case the object is pushed onto the free list when reset reports reusable and
otherwise left off the free list and marked discarded; when the decremented
count is non-zero no other state changes. -/
theorem release_decrement_reset (resetOk : Nat → Bool) (s : PoolSt) (i : Nat) :
    (Release resetOk s (some i)).count i = s.count i - 1 ∧
      (∀ j, j ≠ i → (Release resetOk s (some i)).count j = s.count j) ∧
      ((Release resetOk s (some i)).resetGen i = s.resetGen i + 1 ↔
        s.count i - 1 = 0) ∧
      (s.count i - 1 = 0 → resetOk i = true →
        (Release resetOk s (some i)).free = i :: s.free ∧
          (Release resetOk s (some i)).discarded i = s.discarded i) ∧
      (s.count i - 1 = 0 → resetOk i = false →
        (Release resetOk s (some i)).free = s.free ∧
          (Release resetOk s (some i)).discarded i = true) ∧
      (s.count i - 1 ≠ 0 →
        (Release resetOk s (some i)).free = s.free ∧
          (Release resetOk s (some i)).nextId = s.nextId ∧
          (∀ j, (Release resetOk s (some i)).resetGen j = s.resetGen j) ∧
          (∀ j, (Release resetOk s (some i)).data j = s.data j) ∧
          (∀ j, (Release resetOk s (some i)).discarded j = s.discarded j)) := by
  refine ⟨?_, ?_, ?_, ?_, ?_, ?_⟩
  · rw [Release_count, if_pos rfl]
  · intro j hj
    rw [Release_count, if_neg hj]
  · rw [Release_resetGen]
    by_cases h0 : s.count i - 1 = 0
    · rw [if_pos ⟨rfl, h0⟩]
      simp [h0]
    · rw [if_neg (fun hc => h0 hc.2)]
      constructor
      · intro hx
        omega
      · intro hx
        exact absurd hx h0
  · intro h0 hr
    constructor
    · rw [Release_free, if_pos ⟨h0, hr⟩]
    · rw [Release_discarded,
        if_neg (fun hc => by rw [hc.2.2] at hr; exact Bool.noConfusion hr)]
  · intro h0 hr
    constructor
    · rw [Release_free,
        if_neg (fun hc => by rw [hc.2] at hr; exact Bool.noConfusion hr)]
    · rw [Release_discarded, if_pos ⟨rfl, h0, hr⟩]
  · intro h0
    rw [Release_some, if_neg h0]
    exact ⟨rfl, rfl, fun j => rfl, fun j => rfl, fun j => rfl⟩

theorem release_decrement_reset_witness :
    (Release (fun _ => true) (Get mkPool).2 (some 0)).free = [0] ∧
      (Release (fun _ => true) (Get mkPool).2 (some 0)).count 0 =
        (Get mkPool).2.count 0 - 1 := by
  have h := release_decrement_reset (fun _ => true) (Get mkPool).2 0
  exact ⟨(h.2.2.2.1 (by decide) rfl).1, h.1⟩

/-- C6: `Pool.Get()` pops the free list head when it is non-empty and
otherwise hands out a freshly constructed payload (the next unused id), in
both cases with count 1; it is total (always returns).  `Container.GetNew()`
delegates to the pool's `Get` and leaves `current` alone. -/
theorem get_count_one (s : PoolSt) (c : ContainerSt) :
    (Get s).2.count (Get s).1 = 1 ∧
      (s.free = [] → (Get s).1 = s.nextId ∧ (Get s).2.nextId = s.nextId + 1) ∧
      (∀ i rest, s.free = i :: rest →
        (Get s).1 = i ∧ (Get s).2.free = rest) ∧
      (GetNew c).1 = (Get c.pool).1 ∧
      (GetNew c).2.pool = (Get c.pool).2 ∧
      (GetNew c).2.current = c.current := by
  refine ⟨?_, ?_, ?_, rfl, rfl, rfl⟩
  · rw [Get_count, if_pos rfl]
  · intro h
    rw [Get_fst, Get_nextId, h]
    simp
  · intro i rest h
    rw [Get_fst, Get_free, h]
    simp

theorem get_count_one_witness :
    (Get mkPool).2.count (Get mkPool).1 = 1 ∧
      (Get mkPool).1 = mkPool.nextId := by
  have h := get_count_one mkPool (NewEmptyContainer mkPool)
  exact ⟨h.1, (h.2.1 rfl).1⟩

/-- C8: `Acquire` on a container constructed by `NewEmptyContainer` and never
updated returns nil and changes no state, after any number of prior
`Acquire`s; `Release` on a nil reference is a no-op, both on the pool and
through the container's proxy. -/
theorem empty_container_noop (resetOk : Nat → Bool) (pool : PoolSt) (k : Nat) :
    (NewEmptyContainer pool).current = none ∧
      Acquire (acqN k (NewEmptyContainer pool)) =
        (none, NewEmptyContainer pool) ∧
      (∀ s : PoolSt, Release resetOk s none = s) ∧
      (∀ c : ContainerSt, CRelease resetOk c none = c) := by
  have hacq : acqN k (NewEmptyContainer pool) = NewEmptyContainer pool := by
    induction k with
    | zero => rfl
    | succ n ih => exact ih
  refine ⟨rfl, ?_, fun s => rfl, fun c => rfl⟩
  rw [hacq]
  rfl

theorem empty_container_noop_witness :
    Acquire (acqN 3 (NewEmptyContainer mkPool)) =
      (none, NewEmptyContainer mkPool) := by
  have h := empty_container_noop (fun _ => true) mkPool 3
  exact h.2.1

/-- C10: `Update(nil)` publishes the empty value: `current` becomes nil and
every subsequent `Acquire` returns nil; the previous current (when there was
one) is released exactly once — its count drops by 1 and reset fires iff the
result is 0 — and `Update(nil)` on an already-empty container changes no
state at all. -/
theorem update_nil (resetOk : Nat → Bool) (c : ContainerSt) (k : Nat) :
    (Update resetOk c none).current = none ∧
      (Acquire (acqN k (Update resetOk c none))).1 = none ∧
      (c.current = none → Update resetOk c none = c) ∧
      (∀ o, c.current = some o →
        (Update resetOk c none).pool = Release resetOk c.pool (some o) ∧
          (Update resetOk c none).pool.count o = c.pool.count o - 1 ∧
          ((Update resetOk c none).pool.resetGen o = c.pool.resetGen o + 1 ↔
            c.pool.count o - 1 = 0)) := by
  refine ⟨Update_current resetOk c none, ?_, ?_, ?_⟩
  · rw [Acquire_fst, acqN_current, Update_current]
  · intro h
    cases c with
    | mk pool cur =>
      have hcur : cur = none := h
      rw [hcur]
      rfl
  · intro o ho
    have hpool : (Update resetOk c none).pool = Release resetOk c.pool (some o) := by
      rw [Update_pool, ho]
    refine ⟨hpool, ?_, ?_⟩
    · rw [hpool, Release_count, if_pos rfl]
    · rw [hpool, Release_resetGen]
      by_cases h0 : c.pool.count o - 1 = 0
      · rw [if_pos ⟨rfl, h0⟩]
        simp [h0]
      · rw [if_neg (fun hc => h0 hc.2)]
        constructor
        · intro hx
          omega
        · intro hx
          exact absurd hx h0

theorem update_nil_witness :
    (Update (fun _ => true) (NewContainer (Get mkPool).2 (some 0))
        none).current = none ∧
      (Update (fun _ => true) (NewContainer (Get mkPool).2 (some 0))
          none).pool.count 0 =
        (NewContainer (Get mkPool).2 (some 0)).pool.count 0 - 1 := by
  have h := update_nil (fun _ => true) (NewContainer (Get mkPool).2 (some 0)) 0
  exact ⟨h.1, (h.2.2.2 0 rfl).2.1⟩

/-- C5 counterexample: `Update` with the payload that is already current
does change that payload's count (the container releases the old current,
which is the same object).  Concretely, with payload 0 current at count 2,
`Update(0)` leaves its count at 1, not 2. -/
theorem update_same_payload_changes_count :
    (Update (fun _ => true) (Acquire (NewContainer (Get mkPool).2 (some 0))).2
        (some 0)).pool.count 0 ≠
      (Acquire (NewContainer (Get mkPool).2 (some 0))).2.pool.count 0 := by
  decide

/-- C5 amended: provided the new payload is not the payload already current,
`Update(newPayload)` installs it as current, leaves its count unchanged,
releases the previous current via the pool's `Release` (decrementing its
count by 1) when it was non-empty, changes nothing in the pool when it was
empty, and leaves the count and domain data of every other payload
unchanged. -/
theorem update_frame (resetOk : Nat → Bool) (c : ContainerSt) (n : Nat)
    (hne : c.current ≠ some n) :
    (Update resetOk c (some n)).current = some n ∧
      (Update resetOk c (some n)).pool.count n = c.pool.count n ∧
      (c.current = none → (Update resetOk c (some n)).pool = c.pool) ∧
      (∀ o, c.current = some o →
        (Update resetOk c (some n)).pool = Release resetOk c.pool (some o) ∧
          (Update resetOk c (some n)).pool.count o = c.pool.count o - 1) ∧
      (∀ j, j ≠ n → c.current ≠ some j →
        (Update resetOk c (some n)).pool.count j = c.pool.count j ∧
          (Update resetOk c (some n)).pool.data j = c.pool.data j) := by
  refine ⟨Update_current resetOk c (some n), ?_, ?_, ?_, ?_⟩
  · rw [Update_pool]
    cases hcur : c.current with
    | none => rw [Release_none]
    | some o =>
      have hno : ¬ n = o := fun hno => hne (by rw [hcur, hno])
      rw [Release_count, if_neg hno]
  · intro h
    rw [Update_pool, h, Release_none]
  · intro o ho
    rw [Update_pool, ho]
    refine ⟨rfl, ?_⟩
    rw [Release_count, if_pos rfl]
  · intro j hj hcj
    rw [Update_pool]
    cases hcur : c.current with
    | none => rw [Release_none]; exact ⟨rfl, rfl⟩
    | some o =>
      have hjo : j ≠ o := fun hh => hcj (by rw [hcur, hh])
      constructor
      · rw [Release_count, if_neg hjo]
      · rw [Release_data, if_neg (fun hc => hjo hc.1)]

theorem update_frame_witness :
    (Update (fun _ => true) (NewContainer (Get mkPool).2 (some 0))
        (some 1)).current = some 1 ∧
      (Update (fun _ => true) (NewContainer (Get mkPool).2 (some 0))
          (some 1)).pool.count 1 =
        (NewContainer (Get mkPool).2 (some 0)).pool.count 1 := by
  have h := update_frame (fun _ => true) (NewContainer (Get mkPool).2 (some 0))
    1 (by decide)
  exact ⟨h.1, h.2.1⟩

/-- C7: with payload `i` current and its count at least 1, `n` `Acquire`s
followed by `n` `Release`s of `i` (no interleaved `Update`) return the count
to its pre-sequence value and leave `current` unchanged. -/
theorem balanced_acquire_release (resetOk : Nat → Bool) (c : ContainerSt)
    (i n : Nat) (hcur : c.current = some i) (_hc1 : 1 ≤ c.pool.count i) :
    (relN resetOk i n (acqN n c)).pool.count i = c.pool.count i ∧
      (relN resetOk i n (acqN n c)).current = c.current := by
  rcases relN_count resetOk i n (acqN n c) with ⟨ha, hb⟩
  refine ⟨?_, ?_⟩
  · rw [ha, acqN_count n c i hcur]
    ring
  · rw [hb, acqN_current]

theorem balanced_acquire_release_witness :
    (relN (fun _ => true) 0 2
        (acqN 2 (NewContainer (Get mkPool).2 (some 0)))).pool.count 0 =
      (NewContainer (Get mkPool).2 (some 0)).pool.count 0 ∧
      (relN (fun _ => true) 0 2
          (acqN 2 (NewContainer (Get mkPool).2 (some 0)))).current =
        (NewContainer (Get mkPool).2 (some 0)).current :=
  balanced_acquire_release (fun _ => true)
    (NewContainer (Get mkPool).2 (some 0)) 0 2 rfl (by decide)

/-! ### Scenario A (basic swap) -/

/-- Scenario A, step 1: `Get()` on a fresh pool; `.1` is object A. -/
def scenGet : Nat × PoolSt := Get mkPool

/-- Scenario A, step 2: `NewContainer(pool, A)`. -/
def scenCont : ContainerSt := NewContainer scenGet.2 (some scenGet.1)

/-- Scenario A, steps 3-4: `Acquire()` then `Release(A)`. -/
def scenAfterRelease (resetOk : Nat → Bool) : ContainerSt :=
  CRelease resetOk (Acquire scenCont).2 (some scenGet.1)

/-- Scenario A, step 5: `GetNew()`; `.1` is object B. -/
def scenGetNew (resetOk : Nat → Bool) : Nat × ContainerSt :=
  GetNew (scenAfterRelease resetOk)

/-- Scenario A, step 6: `Update(B)`. -/
def scenFinal (resetOk : Nat → Bool) : ContainerSt :=
  Update resetOk (scenGetNew resetOk).2 (some (scenGetNew resetOk).1)

/-- C3: Scenario A.  From a fresh pool: `Get()` returns A with count 1;
`NewContainer(pool, A)` has current A with count 1; `Acquire()` returns A
raising the count to 2; `Release(A)` lowers it to 1; after `Update(B)` with
B from `GetNew()` (count 1, B ≠ A), A's count is 0, reset ran once on A, A
is on the free list exactly when reset reported it reusable, current is B,
and every subsequent `Acquire` returns B and never A. -/
theorem scenario_a (resetOk : Nat → Bool) (k : Nat) :
    scenGet.2.count scenGet.1 = 1 ∧
      scenCont.current = some scenGet.1 ∧
      scenCont.pool.count scenGet.1 = 1 ∧
      (Acquire scenCont).1 = some scenGet.1 ∧
      (Acquire scenCont).2.pool.count scenGet.1 = 2 ∧
      (scenAfterRelease resetOk).pool.count scenGet.1 = 1 ∧
      (scenGetNew resetOk).2.pool.count (scenGetNew resetOk).1 = 1 ∧
      (scenGetNew resetOk).1 ≠ scenGet.1 ∧
      (scenFinal resetOk).pool.count scenGet.1 = 0 ∧
      (scenFinal resetOk).pool.resetGen scenGet.1 = 1 ∧
      (scenFinal resetOk).pool.free =
        (if resetOk scenGet.1 = true then [scenGet.1] else []) ∧
      (scenFinal resetOk).current = some (scenGetNew resetOk).1 ∧
      (Acquire (acqN k (scenFinal resetOk))).1 = some (scenGetNew resetOk).1 ∧
      (Acquire (acqN k (scenFinal resetOk))).1 ≠ some scenGet.1 := by
  have hfin : (scenFinal resetOk).pool =
      Release resetOk (scenGetNew resetOk).2.pool (some scenGet.1) := by
    rw [scenFinal, Update_pool]
    rfl
  have hc1 : (scenGetNew resetOk).2.pool.count scenGet.1 = 1 := rfl
  have hdec : (scenGetNew resetOk).2.pool.count scenGet.1 - 1 = 0 := by
    rw [hc1]
    decide
  refine ⟨rfl, rfl, rfl, rfl, rfl, rfl, rfl,
    Nat.one_ne_zero, ?_, ?_, ?_, ?_, ?_, ?_⟩
  · rw [hfin, Release_count, if_pos rfl, hdec]
  · rw [hfin, Release_resetGen, if_pos ⟨rfl, hdec⟩]
    rfl
  · rw [hfin, Release_free]
    by_cases hr : resetOk scenGet.1 = true
    · rw [if_pos ⟨hdec, hr⟩, if_pos hr]
      rfl
    · rw [if_neg (fun hc => hr hc.2), if_neg hr]
      rfl
  · rw [scenFinal, Update_current]
  · rw [Acquire_fst, acqN_current, scenFinal, Update_current]
  · rw [Acquire_fst, acqN_current, scenFinal, Update_current]
    exact fun h => Nat.one_ne_zero (Option.some.inj h)

/-! ### Sequences of pool operations (for discard correctness) -/

/-- A caller-visible pool operation: `Get`, or `Release` of a reference. -/
inductive PoolOp where
  | get : PoolOp
  | release : Option Nat → PoolOp

/-- The payloads returned by the `Get` calls of a sequence of pool
operations run from state `s`. -/
def getsOf (resetOk : Nat → Bool) : List PoolOp → PoolSt → List Nat
  | [], _ => []
  | PoolOp.get :: ops, s => (Get s).1 :: getsOf resetOk ops (Get s).2
  | PoolOp.release o :: ops, s => getsOf resetOk ops (Release resetOk s o)

/-- C9: once `Reset` reports payload `i` non-reusable at the moment its count
reached 0 (so `returnToPool` discarded it instead of `Put`ting it back), no
later sequence of `Get` and `Release` calls ever returns `i` from a `Get`.
The hypotheses record the discarded state: `i` was already handed out
(`i < nextId`), the free list holds only reusable payloads (an invariant of
reachable pools), and `Reset` rejects `i`. -/
theorem discarded_never_returned (resetOk : Nat → Bool) (s : PoolSt) (i : Nat)
    (hdisc : s.discarded i = true) (hfalse : resetOk i = false)
    (hlt : i < s.nextId) (hfree : ∀ j ∈ s.free, resetOk j = true)
    (ops : List PoolOp) : i ∉ getsOf resetOk ops s := by
  induction ops generalizing s with
  | nil => exact List.not_mem_nil i
  | cons op rest ih =>
    cases op with
    | get =>
      show i ∉ (Get s).1 :: getsOf resetOk rest (Get s).2
      intro hmem
      rcases List.mem_cons.mp hmem with h | h
      · rcases Get_fst_cases s with hm | ⟨he, _⟩
        · rw [← h] at hm
          rw [hfree i hm] at hfalse
          exact Bool.noConfusion hfalse
        · rw [he] at h
          omega
      · refine ih (Get s).2 ?_ ?_ ?_ h
        · rw [Get_discarded]
          exact hdisc
        · exact lt_of_lt_of_le hlt (Get_nextId_le s)
        · intro m hm
          rw [Get_free] at hm
          exact hfree m (List.mem_of_mem_tail hm)
    | release o =>
      show i ∉ getsOf resetOk rest (Release resetOk s o)
      cases o with
      | none =>
        rw [Release_none]
        exact ih s hdisc hlt hfree
      | some j =>
        refine ih (Release resetOk s (some j)) ?_ ?_ ?_
        · rw [Release_discarded]
          split
          · rfl
          · exact hdisc
        · rw [Release_nextId]
          exact hlt
        · intro m hm
          rw [Release_free] at hm
          by_cases hc : s.count j - 1 = 0 ∧ resetOk j = true
          · rw [if_pos hc] at hm
            rcases List.mem_cons.mp hm with hmj | hm2
            · rw [hmj]
              exact hc.2
            · exact hfree m hm2
          · rw [if_neg hc] at hm
            exact hfree m hm

theorem discarded_never_returned_witness :
    (0 : Nat) ∉ getsOf (fun _ => false) [PoolOp.get]
      (Release (fun _ => false) (Get mkPool).2 (some 0)) :=
  discarded_never_returned (fun _ => false)
    (Release (fun _ => false) (Get mkPool).2 (some 0)) 0 (by decide) rfl
    (by decide) (fun j hj => absurd hj (List.not_mem_nil j)) [PoolOp.get]

end Poolswap
